import Mathlib

/-!
# SentriAI compliance core: a shallow embedding

This development embeds the algorithmic core of the SentriAI repository
(`src/app/lib/riskEngine.ts`, `src/app/lib/provenance.ts`,
`src/app/lib/complianceStore.ts`) in Lean and proves the specification
claims about it.

Modelling conventions:
* JavaScript strings are lists of UTF-16 code units, `List ℕ`.
* 32-bit signed integer coercion (`| 0`, `<<`) is modelled on `ℤ` with an
  explicit reduction modulo `2 ^ 32` (`toInt32`).
* IEEE-754 binary64 arithmetic is modelled exactly on nonnegative dyadic
  rationals (`Dy`), with round-to-nearest, ties-to-even at 53 bits of
  precision (`Dy.rnd`).  In the range used by the program (values in
  `[0, 128]`, no overflow, no subnormals) this is the exact semantics of
  the JavaScript `+` and `*` on doubles.
* Wall-clock timestamps (`new Date().toISOString()`) are passed in as an
  explicit parameter `now`; they never influence any computed field.
-/

/-! ## 32-bit integer semantics and the hash engine (riskEngine.ts) -/

/-- ECMAScript `ToInt32`: reduce an integer modulo `2 ^ 32` into the
signed range `[-2 ^ 31, 2 ^ 31)`.  This is what `x | 0` performs on an
integral double. -/
def toInt32 (x : ℤ) : ℤ :=
  let r := x % 4294967296
  if r < 2147483648 then r else r - 4294967296

/-- One iteration of the loop body of `hashScore`:
`hash = (hash << 5) - hash + input.charCodeAt(i) + seed; hash |= 0`.
`hash << 5` coerces through 32 bits first, the surrounding sum is exact
double arithmetic (all magnitudes below `2 ^ 53`), and `|= 0` coerces the
result. -/
def hashStep (seed : ℤ) (hash : ℤ) (c : ℕ) : ℤ :=
  toInt32 (toInt32 (hash * 32) - hash + c + seed)

/-- Function `hashScore` from `src/app/lib/riskEngine.ts`: fold the step over the
code units, then `Math.abs(hash % 101)`.  JavaScript `%` is the truncated
remainder (`Int.tmod`). -/
def hashScore (input : List ℕ) (seed : ℤ) : ℕ :=
  (Int.tmod (input.foldl (hashStep seed) 0) 101).natAbs

/-- Modelled from the spec (claim C2's reference function, quoted): per
code unit `c`, `accumulator = truncateToInt32(accumulator * 31 -
accumulator + c + key)`; after the loop, `abs(accumulator) % 101`. -/
def specHashToRange (text : List ℕ) (key : ℤ) : ℕ :=
  (text.foldl (fun (acc : ℤ) (c : ℕ) => toInt32 (acc * 31 - acc + c + key)) 0).natAbs % 101

/-- The spec's reference function with the update corrected to
`accumulator * 32 - accumulator + c + key` (equivalently
`accumulator * 31 + c + key`), which is what `(hash << 5) - hash` computes. -/
def specHashToRangeFixed (text : List ℕ) (key : ℤ) : ℕ :=
  (text.foldl (fun (acc : ℤ) (c : ℕ) => toInt32 (acc * 32 - acc + c + key)) 0).natAbs % 101

/-! ## Exact model of binary64 arithmetic on nonnegative dyadics -/

/-- A nonnegative dyadic rational `num / 2 ^ exp`.  Every value flowing
through the score aggregation is of this form. -/
structure Dy where
  num : ℕ
  exp : ℕ
deriving DecidableEq

/-- Rational value of a dyadic. -/
def Dy.val (d : Dy) : ℚ := (d.num : ℚ) / 2 ^ d.exp

/-- Round `n / 2 ^ s` to the nearest integer, ties to even. -/
def roundEvenDiv (n s : ℕ) : ℕ :=
  if 2 ^ (s - 1) < n % 2 ^ s then n / 2 ^ s + 1
  else if n % 2 ^ s < 2 ^ (s - 1) then n / 2 ^ s
  else if n / 2 ^ s % 2 = 0 then n / 2 ^ s else n / 2 ^ s + 1

/-- Fuel-driven floor of the base-2 logarithm (the fuel only needs to
dominate the argument; using the argument itself as fuel makes the
function structurally recursive). -/
def log2fuel : ℕ → ℕ → ℕ
  | 0, _ => 0
  | fuel + 1, n => if n ≤ 1 then 0 else log2fuel fuel (n / 2) + 1

/-- Floor of the base-2 logarithm (`log2floor n = ⌊log₂ n⌋` for `n ≥ 1`). -/
def log2floor (n : ℕ) : ℕ := log2fuel n n

/-- IEEE-754 round-to-nearest-even at 53 significant bits, for a
nonnegative dyadic in the normal range.  If the numerator already fits in
53 bits the value is representable and unchanged; otherwise the numerator
is rounded to the nearest multiple of `2 ^ (bitlength - 53)`, ties to the
even multiple, which is exactly rounding to the 53-bit grid of the
value's binade. -/
def Dy.rnd (d : Dy) : Dy :=
  if d.num < 9007199254740992 then d
  else
    let s := log2floor d.num + 1 - 53
    ⟨roundEvenDiv d.num s * 2 ^ s, d.exp⟩

/-- Exact sum of two dyadics over a common exponent. -/
def Dy.addExact (a b : Dy) : Dy :=
  let e := max a.exp b.exp
  ⟨a.num * 2 ^ (e - a.exp) + b.num * 2 ^ (e - b.exp), e⟩

/-- JavaScript `+` on doubles: exact sum, then binary64 rounding. -/
def Dy.fadd (a b : Dy) : Dy := (a.addExact b).rnd

/-- JavaScript `*` of a double constant by a small integer (the integer
converts to a double exactly): exact product, then binary64 rounding. -/
def Dy.fmulNat (c : Dy) (x : ℕ) : Dy := Dy.rnd ⟨c.num * x, c.exp⟩

/-- The double denoted by the literal `0.5` (exact). -/
def lit0p5 : Dy := ⟨1, 1⟩

/-- The double denoted by the literal `0.3`: the binary64 value nearest
`3 / 10`, namely `5404319552844595 / 2 ^ 54` (it differs from `3 / 10` by
`-1 / (5 * 2 ^ 54)`, less than half an ulp). -/
def lit0p3 : Dy := ⟨5404319552844595, 54⟩

/-- The double denoted by the literal `0.2`: the binary64 value nearest
`1 / 5`, namely `3602879701896397 / 2 ^ 54` (it differs from `1 / 5` by
`1 / (5 * 2 ^ 54)`, less than half an ulp). -/
def lit0p2 : Dy := ⟨3602879701896397, 54⟩

/-- The raw weighted score of `evaluateCompliance`:
`0.5 * sanctions + 0.3 * behavioral + 0.2 * reputation`, evaluated
left-associatively in binary64 exactly as the source does. -/
def finalScoreRaw (s b r : ℕ) : Dy :=
  ((lit0p5.fmulNat s).fadd (lit0p3.fmulNat b)).fadd (lit0p2.fmulNat r)

/-- ECMAScript `Math.round` on a nonnegative double: the closest integer,
halfway cases toward `+∞`; on the exact value this is
`⌊v + 1 / 2⌋ = (2 * num + 2 ^ exp) / 2 ^ (exp + 1)` in integer division. -/
def jsRound (d : Dy) : ℕ := (2 * d.num + 2 ^ d.exp) / 2 ^ (d.exp + 1)

/-- Comparison `d < k` of a dyadic double against an integer literal,
as the source's `finalScore < 30` / `finalScore < 70`. -/
def dyLtNat (d : Dy) (k : ℕ) : Bool := d.num < k * 2 ^ d.exp

/-- Modelled from the spec: `finalScore = round(Σ weight_i × subScore_i)`
on the exact rational value `(5s + 3b + 2r) / 10`, rounding half away
from zero; for a nonnegative value with denominator 10 this is
`(5s + 3b + 2r + 5) / 10` in integer division. -/
def specFinalScore (s b r : ℕ) : ℕ := (5 * s + 3 * b + 2 * r + 5) / 10

/-! ## Normalization (`toLowerCase`, `toUpperCase`, `trim`) -/

/-- The ECMAScript WhiteSpace and LineTerminator code units removed by
`String.prototype.trim`. -/
def wsChars : List ℕ :=
  [9, 10, 11, 12, 13, 32, 160, 5760, 8192, 8193, 8194, 8195, 8196, 8197,
   8198, 8199, 8200, 8201, 8202, 8232, 8233, 8239, 8287, 12288, 65279]

/-- Whitespace test used by the `trim` model. -/
def isJsWs (c : ℕ) : Bool := wsChars.contains c

/-- Model of `String.prototype.trim`: drop leading and trailing
whitespace code units. -/
def jsTrim (l : List ℕ) : List ℕ :=
  ((l.dropWhile isJsWs).reverse.dropWhile isJsWs).reverse

/-- Single-unit fragment of the Unicode lowercase mapping used by
`String.prototype.toLowerCase`: ASCII `A`–`Z` map to `a`–`z`.  All other
code units appearing in this development (ASCII, whitespace, U+00DF) are
fixed points of the full mapping. -/
def jsLowerUnit (c : ℕ) : ℕ := if 65 ≤ c ∧ c ≤ 90 then c + 32 else c

/-- Model of `String.prototype.toLowerCase` on the fragment above. -/
def jsToLower (l : List ℕ) : List ℕ := l.map jsLowerUnit

/-- Single-unit uppercase map for code units whose uppercase image is a
single unit (every ASCII unit in particular). -/
def jsUpperUnit (c : ℕ) : ℕ := if 97 ≤ c ∧ c ≤ 122 then c - 32 else c

/-- Fragment of the Unicode full uppercase mapping used by
`String.prototype.toUpperCase`: ASCII `a`–`z` map to `A`–`Z`, and U+00DF
(`ß`) expands to `SS`; other code units used here are fixed points. -/
def jsUpperUnits (c : ℕ) : List ℕ :=
  if c = 223 then [83, 83] else [jsUpperUnit c]

/-- Model of `String.prototype.toUpperCase` on the fragment above. -/
def jsToUpper (l : List ℕ) : List ℕ := l.flatMap jsUpperUnits

/-! ## The scorer (`evaluateCompliance`) -/

/-- The three-valued status enumeration. -/
inductive Status where
  | APPROVED
  | WARNING
  | BLOCKED
deriving DecidableEq

/-- The `ComplianceResult` record.  `arweaveTx` and `ledger` are the
optional fields of the interface; `timestamp` is the wall-clock metadata
string. -/
structure ComplianceResult where
  wallet : List ℕ
  sanctionsScore : ℕ
  behavioralScore : ℕ
  reputationScore : ℕ
  finalScore : ℕ
  status : Status
  arweaveTx : Option (List ℕ)
  ledger : Option (List ℕ)
  timestamp : List ℕ
deriving DecidableEq

/-- Function `evaluateCompliance` from `src/app/lib/riskEngine.ts`.  The clock
reading used for the `timestamp` metadata is passed as `now`. -/
def evaluateCompliance (wallet : List ℕ) (now : List ℕ) : ComplianceResult :=
  let normalized := jsTrim (jsToLower wallet)
  let sanctions := hashScore normalized 11
  let behavioral := hashScore normalized 29
  let reputation := hashScore normalized 53
  let finalScore := finalScoreRaw sanctions behavioral reputation
  let status :=
    if dyLtNat finalScore 30 then Status.BLOCKED
    else if dyLtNat finalScore 70 then Status.WARNING
    else Status.APPROVED
  { wallet := normalized
    sanctionsScore := sanctions
    behavioralScore := behavioral
    reputationScore := reputation
    finalScore := jsRound finalScore
    status := status
    arweaveTx := none
    ledger := none
    timestamp := now }

/-- The raw (pre-rounding) weighted score computed inside
`evaluateCompliance` for a wallet: the three hash sub-scores of the
normalized wallet fed into the binary64 aggregation. -/
def rawScoreOf (wallet : List ℕ) : Dy :=
  finalScoreRaw (hashScore (jsTrim (jsToLower wallet)) 11)
    (hashScore (jsTrim (jsToLower wallet)) 29)
    (hashScore (jsTrim (jsToLower wallet)) 53)

/-! ## JSON serialization (`JSON.stringify` of the sorted payload) -/

/-- Code units of a Lean string literal (all constants used are ASCII,
where scalar values and UTF-16 code units coincide). -/
def strUnits (s : String) : List ℕ := s.toList.map Char.toNat

/-- Decimal digits (code units) of a natural number, as JavaScript
number-to-string conversion produces for small integers. -/
def natDigits (n : ℕ) : List ℕ :=
  if n < 10 then [48 + n]
  else natDigits (n / 10) ++ [48 + n % 10]
decreasing_by exact Nat.div_lt_self (by omega) (by omega)

/-- Lowercase hexadecimal digit character for `n < 16`. -/
def hexDigitChar (n : ℕ) : ℕ := if n < 10 then 48 + n else 87 + n

/-- ECMAScript `QuoteJSONString` escaping of one code unit (the
unpaired-surrogate `\uXXXX` escaping is omitted; exact for code units
outside the surrogate range, which covers every string serialized
here). -/
def jsonEscapeUnit (c : ℕ) : List ℕ :=
  if c = 34 then [92, 34]
  else if c = 92 then [92, 92]
  else if c = 8 then [92, 98]
  else if c = 9 then [92, 116]
  else if c = 10 then [92, 110]
  else if c = 12 then [92, 102]
  else if c = 13 then [92, 114]
  else if c < 32 then [92, 117, 48, 48, hexDigitChar (c / 16), hexDigitChar (c % 16)]
  else [c]

/-- A JSON string literal: quote, escaped units, quote. -/
def jsonStringLit (l : List ℕ) : List ℕ := 34 :: l.flatMap jsonEscapeUnit ++ [34]

/-- The status strings. -/
def statusText : Status → List ℕ
  | Status.APPROVED => strUnits ("APPROVED")
  | Status.WARNING => strUnits ("WARNING")
  | Status.BLOCKED => strUnits ("BLOCKED")

/-- The default `Array.prototype.sort` comparator on strings: strict
lexicographic less-than on UTF-16 code units. -/
def lexLtUnits : List ℕ → List ℕ → Bool
  | [], [] => false
  | [], _ :: _ => true
  | _ :: _, [] => false
  | a :: as, b :: bs => if a < b then true else if b < a then false else lexLtUnits as bs

/-- Insert a key/serialized-value pair into a key-sorted list. -/
def insertPair (p : List ℕ × List ℕ) : List (List ℕ × List ℕ) → List (List ℕ × List ℕ)
  | [] => [p]
  | q :: qs => if lexLtUnits p.1 q.1 then p :: q :: qs else q :: insertPair p qs

/-- Sort key/serialized-value pairs by key (the keys here are pairwise
distinct, so this is the unique sorted arrangement `Object.keys(...).sort()`
produces). -/
def sortPairs : List (List ℕ × List ℕ) → List (List ℕ × List ℕ)
  | [] => []
  | p :: ps => insertPair p (sortPairs ps)

/-- One `"key":value` member. -/
def entryBytes (p : List ℕ × List ℕ) : List ℕ := jsonStringLit p.1 ++ 58 :: p.2

/-- Comma-joined object members. -/
def joinEntries : List (List ℕ × List ℕ) → List ℕ
  | [] => []
  | [p] => entryBytes p
  | p :: q :: qs => entryBytes p ++ 44 :: joinEntries (q :: qs)

/-- Serialization `JSON.stringify` of an object given its members in key order. -/
def jsonObject (entries : List (List ℕ × List ℕ)) : List ℕ :=
  123 :: joinEntries entries ++ [125]

/-- The constant protocol tag `'SentriAI'`. -/
def protocolTag : List ℕ := strUnits ("SentriAI")

/-- The `payloadData` object of `createProvenancePayload`, as key /
serialized-value pairs in source (insertion) order. -/
def payloadEntries (result : ComplianceResult) : List (List ℕ × List ℕ) :=
  [(strUnits ("protocol"), jsonStringLit protocolTag),
   (strUnits ("wallet"), jsonStringLit result.wallet),
   (strUnits ("sanctionsScore"), natDigits result.sanctionsScore),
   (strUnits ("behavioralScore"), natDigits result.behavioralScore),
   (strUnits ("reputationScore"), natDigits result.reputationScore),
   (strUnits ("finalScore"), natDigits result.finalScore),
   (strUnits ("status"), jsonStringLit (statusText result.status))]

/-- The `payloadJson` value: the `JSON.stringify(sortedPayload)` string that
`createProvenancePayload` feeds to SHA-256. -/
def payloadJson (result : ComplianceResult) : List ℕ :=
  jsonObject (sortPairs (payloadEntries result))

/-- Modelled from the spec: the canonical serialization of the fixed
field set with keys in sorted lexicographic order, written out
explicitly in that order. -/
def specCanonicalJson (result : ComplianceResult) : List ℕ :=
  jsonObject
    [(strUnits ("behavioralScore"), natDigits result.behavioralScore),
     (strUnits ("finalScore"), natDigits result.finalScore),
     (strUnits ("protocol"), jsonStringLit protocolTag),
     (strUnits ("reputationScore"), natDigits result.reputationScore),
     (strUnits ("sanctionsScore"), natDigits result.sanctionsScore),
     (strUnits ("status"), jsonStringLit (statusText result.status)),
     (strUnits ("wallet"), jsonStringLit result.wallet)]

/-! ## UTF-8 encoding (`Buffer` 'utf8' semantics) -/

/-- UTF-8 bytes of a UTF-16 code-unit sequence, as Node encodes a
JavaScript string: surrogate pairs combine to a 4-byte sequence, lone
surrogates become the replacement character `EF BF BD`. -/
def utf8Encode : List ℕ → List ℕ
  | [] => []
  | c :: rest =>
    if c < 128 then c :: utf8Encode rest
    else if c < 2048 then (192 + c / 64) :: (128 + c % 64) :: utf8Encode rest
    else if c < 55296 ∨ 57344 ≤ c then
      (224 + c / 4096) :: (128 + c / 64 % 64) :: (128 + c % 64) :: utf8Encode rest
    else if c < 56320 then
      match rest with
      | c2 :: rest2 =>
        if 56320 ≤ c2 ∧ c2 < 57344 then
          let cp := 65536 + (c - 55296) * 1024 + (c2 - 56320)
          (240 + cp / 262144) :: (128 + cp / 4096 % 64) :: (128 + cp / 64 % 64) ::
            (128 + cp % 64) :: utf8Encode rest2
        else 239 :: 191 :: 189 :: utf8Encode (c2 :: rest2)
      | [] => [239, 191, 189]
    else 239 :: 191 :: 189 :: utf8Encode rest
termination_by l => l.length
decreasing_by all_goals (simp only [List.length_cons]; omega)

/-! ## SHA-256 (FIPS 180-4), on `ℕ` with explicit reduction mod `2 ^ 32` -/

/-- Rotate a 32-bit word right by `k` positions. -/
def rotr32 (k x : ℕ) : ℕ := x / 2 ^ k + x % 2 ^ k * 2 ^ (32 - k)

/-- 32-bit complement. -/
def not32 (x : ℕ) : ℕ := 4294967295 - x % 4294967296

/-- SHA-256 `Ch`. -/
def shaCh (x y z : ℕ) : ℕ := Nat.xor (Nat.land x y) (Nat.land (not32 x) z)

/-- SHA-256 `Maj`. -/
def shaMaj (x y z : ℕ) : ℕ :=
  Nat.xor (Nat.xor (Nat.land x y) (Nat.land x z)) (Nat.land y z)

/-- SHA-256 `Σ0`. -/
def bigSigma0 (x : ℕ) : ℕ := Nat.xor (rotr32 2 x) (Nat.xor (rotr32 13 x) (rotr32 22 x))

/-- SHA-256 `Σ1`. -/
def bigSigma1 (x : ℕ) : ℕ := Nat.xor (rotr32 6 x) (Nat.xor (rotr32 11 x) (rotr32 25 x))

/-- SHA-256 `σ0`. -/
def smallSigma0 (x : ℕ) : ℕ := Nat.xor (rotr32 7 x) (Nat.xor (rotr32 18 x) (x / 2 ^ 3))

/-- SHA-256 `σ1`. -/
def smallSigma1 (x : ℕ) : ℕ := Nat.xor (rotr32 17 x) (Nat.xor (rotr32 19 x) (x / 2 ^ 10))

/-- The 64 SHA-256 round constants. -/
def shaK : List ℕ :=
  [1116352408, 1899447441, 3049323471, 3921009573, 961987163, 1508970993,
   2453635748, 2870763221, 3624381080, 310598401, 607225278, 1426881987,
   1925078388, 2162078206, 2614888103, 3248222580, 3835390401, 4022224774,
   264347078, 604807628, 770255983, 1249150122, 1555081692, 1996064986,
   2554220882, 2821834349, 2952996808, 3210313671, 3336571891, 3584528711,
   113926993, 338241895, 666307205, 773529912, 1294757372, 1396182291,
   1695183700, 1986661051, 2177026350, 2456956037, 2730485921, 2820302411,
   3259730800, 3345764771, 3516065817, 3600352804, 4094571909, 275423344,
   430227734, 506948616, 659060556, 883997877, 958139571, 1322822218,
   1537002063, 1747873779, 1955562222, 2024104815, 2227730452, 2361852424,
   2428436474, 2756734187, 3204031479, 3329325298]

/-- SHA-256 working state / hash value: eight 32-bit words. -/
structure Hash8 where
  a : ℕ
  b : ℕ
  c : ℕ
  d : ℕ
  e : ℕ
  f : ℕ
  g : ℕ
  h : ℕ

/-- Initial SHA-256 hash value. -/
def shaH0 : Hash8 :=
  ⟨1779033703, 3144134277, 1013904242, 2773480762,
   1359893119, 2600822924, 528734635, 1541459225⟩

/-- Big-endian 32-bit words from a list of bytes. -/
def bytesToWords : List ℕ → List ℕ
  | b0 :: b1 :: b2 :: b3 :: rest =>
    (b0 * 16777216 + b1 * 65536 + b2 * 256 + b3) :: bytesToWords rest
  | _ => []

/-- Extend 16 message words to the 64-word schedule. -/
def buildSched (init16 : List ℕ) : List ℕ :=
  (List.range 48).foldl
    (fun acc _ =>
      let n := acc.length
      acc ++ [(smallSigma1 (acc.getD (n - 2) 0) + acc.getD (n - 7) 0 +
               smallSigma0 (acc.getD (n - 15) 0) + acc.getD (n - 16) 0) % 4294967296])
    init16

/-- One SHA-256 round, taking the pair (round constant, schedule word). -/
def compressRound (st : Hash8) (kw : ℕ × ℕ) : Hash8 :=
  let t1 := (st.h + bigSigma1 st.e + shaCh st.e st.f st.g + kw.1 + kw.2) % 4294967296
  let t2 := (bigSigma0 st.a + shaMaj st.a st.b st.c) % 4294967296
  ⟨(t1 + t2) % 4294967296, st.a, st.b, st.c, (st.d + t1) % 4294967296, st.e, st.f, st.g⟩

/-- Compress one 64-byte block into the running hash. -/
def compressBlock (H : Hash8) (block : List ℕ) : Hash8 :=
  let ws := buildSched (bytesToWords block)
  let st := (shaK.zip ws).foldl compressRound H
  ⟨(H.a + st.a) % 4294967296, (H.b + st.b) % 4294967296,
   (H.c + st.c) % 4294967296, (H.d + st.d) % 4294967296,
   (H.e + st.e) % 4294967296, (H.f + st.f) % 4294967296,
   (H.g + st.g) % 4294967296, (H.h + st.h) % 4294967296⟩

/-- Append the `0x80` byte, zero padding to 56 mod 64, and the 64-bit
big-endian bit length. -/
def padBytes (m : List ℕ) : List ℕ :=
  let l := m.length
  let z := (119 - l % 64) % 64
  let bits := 8 * l
  m ++ 128 :: List.replicate z 0 ++
    [bits / 2 ^ 56 % 256, bits / 2 ^ 48 % 256, bits / 2 ^ 40 % 256,
     bits / 2 ^ 32 % 256, bits / 2 ^ 24 % 256, bits / 2 ^ 16 % 256,
     bits / 2 ^ 8 % 256, bits % 256]

/-- Split a byte list into 64-byte blocks (the fuel only needs to
dominate the list length; using the length itself keeps the recursion
structural). -/
def toBlocksFuel : ℕ → List ℕ → List (List ℕ)
  | 0, _ => []
  | _ + 1, [] => []
  | fuel + 1, c :: rest => ((c :: rest).take 64) :: toBlocksFuel fuel ((c :: rest).drop 64)

/-- Split a byte list into 64-byte blocks. -/
def toBlocks (l : List ℕ) : List (List ℕ) := toBlocksFuel l.length l

/-- SHA-256 of a byte list, as eight words. -/
def sha256Words (m : List ℕ) : Hash8 :=
  (toBlocks (padBytes m)).foldl compressBlock shaH0

/-- Big-endian bytes of one 32-bit word. -/
def wordBytes (w : ℕ) : List ℕ :=
  [w / 16777216 % 256, w / 65536 % 256, w / 256 % 256, w % 256]

/-- The 32 digest bytes. -/
def hash8Bytes (H : Hash8) : List ℕ :=
  wordBytes H.a ++ wordBytes H.b ++ wordBytes H.c ++ wordBytes H.d ++
  wordBytes H.e ++ wordBytes H.f ++ wordBytes H.g ++ wordBytes H.h

/-- Two lowercase hex characters of one byte (`digest('hex')`). -/
def byteHex (b : ℕ) : List ℕ := [hexDigitChar (b / 16 % 16), hexDigitChar (b % 16)]

/-- Model of `createHash('sha256').update(s, 'utf8').digest('hex')` on a byte
list: the 64-character lowercase hexadecimal digest, as code units. -/
def sha256hex (m : List ℕ) : List ℕ := (hash8Bytes (sha256Words m)).flatMap byteHex

/-- Lowercase hexadecimal digit test (`0`–`9`, `a`–`f`). -/
def isLowerHexDigit (c : ℕ) : Bool :=
  (48 ≤ c ∧ c ≤ 57) ∨ (97 ≤ c ∧ c ≤ 102)

/-! ## Provenance (provenance.ts) -/

/-- The `ProvenancePayload` interface. -/
structure ProvenancePayload where
  protocol : List ℕ
  wallet : List ℕ
  sanctionsScore : ℕ
  behavioralScore : ℕ
  reputationScore : ℕ
  finalScore : ℕ
  status : Status
  deterministicHash : List ℕ
deriving DecidableEq

/-- The `ProvenanceRecord` interface. -/
structure ProvenanceRecord where
  payload : ProvenancePayload
  arweaveTx : List ℕ
deriving DecidableEq

/-- Function `createProvenancePayload` from `src/app/lib/provenance.ts`: extract
the seven-field `payloadData`, serialize it with sorted keys, hash the
UTF-8 bytes with SHA-256, and attach the hex digest. -/
def createProvenancePayload (result : ComplianceResult) : ProvenancePayload :=
  { protocol := protocolTag
    wallet := result.wallet
    sanctionsScore := result.sanctionsScore
    behavioralScore := result.behavioralScore
    reputationScore := result.reputationScore
    finalScore := result.finalScore
    status := result.status
    deterministicHash := sha256hex (utf8Encode (payloadJson result)) }

/-- Function `generateArweaveTxFromPayload`: `"AR_" + hash.substring(0, 43)`. -/
def generateArweaveTxFromPayload (payload : ProvenancePayload) : List ℕ :=
  65 :: 82 :: 95 :: payload.deterministicHash.take 43

/-- Function `createProvenanceRecord`: build the payload, then the token. -/
def createProvenanceRecord (result : ComplianceResult) : ProvenanceRecord :=
  let payload := createProvenancePayload result
  { payload := payload, arweaveTx := generateArweaveTxFromPayload payload }

/-! ## The in-memory store (complianceStore.ts) -/

/-- Function `storeComplianceCheck` from `src/app/lib/complianceStore.ts`: replace
the first entry with the same wallet, else push; then drop the oldest
entry if the length exceeds 100 (`shift`). -/
def storeComplianceCheck (checks : List ComplianceResult)
    (result : ComplianceResult) : List ComplianceResult :=
  let updated :=
    match checks.findIdx? (fun c => c.wallet == result.wallet) with
    | some i => checks.set i result
    | none => checks ++ [result]
  if 100 < updated.length then updated.drop 1 else updated

/-- States of the module-private `complianceChecks` array: it starts
empty and is only ever modified by `storeComplianceCheck`. -/
inductive StoreReachable : List ComplianceResult → Prop where
  | nil : StoreReachable []
  | step (l : List ComplianceResult) (r : ComplianceResult) :
      StoreReachable l → StoreReachable (storeComplianceCheck l r)

/-- Helper: replace the first entry with the stored wallet, else append
(the pre-cap effect of `storeComplianceCheck`, in structural form). -/
def replaceFirstByWallet (result : ComplianceResult) :
    List ComplianceResult → List ComplianceResult
  | [] => [result]
  | c :: cs =>
    if c.wallet == result.wallet then result :: cs
    else c :: replaceFirstByWallet result cs

/-- No two entries share a wallet. -/
def WalletsNodup (l : List ComplianceResult) : Prop :=
  l.Pairwise (fun a b => a.wallet ≠ b.wallet)

/-- Sample result record (used for closed instances of theorems). -/
def sampleResultA : ComplianceResult :=
  { wallet := [106], sanctionsScore := 16, behavioralScore := 34, reputationScore := 58,
    finalScore := 30, status := Status.BLOCKED, arweaveTx := none, ledger := none,
    timestamp := [49] }

/-- A record agreeing with `sampleResultA` on every scored field but
differing in timestamp and in the optional metadata fields. -/
def sampleResultB : ComplianceResult :=
  { wallet := [106], sanctionsScore := 16, behavioralScore := 34, reputationScore := 58,
    finalScore := 30, status := Status.BLOCKED, arweaveTx := some [65, 66],
    ledger := some [67], timestamp := [50] }

/-! # Theorems -/

/-! ## 32-bit arithmetic lemmas -/

theorem toInt32_emod (x : ℤ) : toInt32 x % 4294967296 = x % 4294967296 := by
  unfold toInt32
  dsimp only
  split <;> omega

theorem toInt32_congr (x y : ℤ) (h : x % 4294967296 = y % 4294967296) :
    toInt32 x = toInt32 y := by
  unfold toInt32
  dsimp only
  rw [h]

theorem hashStep_eq (seed acc : ℤ) (c : ℕ) :
    hashStep seed acc c = toInt32 (acc * 32 - acc + c + seed) := by
  unfold hashStep
  apply toInt32_congr
  have h1 := toInt32_emod (acc * 32)
  omega

theorem natAbs_tmod_eq (a : ℤ) (n : ℕ) : (a.tmod n).natAbs = a.natAbs % n := by
  cases a with
  | ofNat m => rfl
  | negSucc m =>
    show (-(Int.ofNat ((m + 1) % n))).natAbs = (m + 1) % n
    rw [Int.natAbs_neg]
    rfl

/-! ## Claim C2 -/

/-- C2 (counterexample): on the two-code-unit input `"aa"` with key 0,
`hashScore` yields 74 while the spec's quoted reference update
`accumulator * 31 - accumulator + c + key` yields 78, so the claimed
equality of `hashScore` with the spec's reference function fails. -/
theorem c2_counterexample_spec_update_formula :
    hashScore [97, 97] 0 = 74 ∧ specHashToRange [97, 97] 0 = 78 ∧
    hashScore [97, 97] 0 ≠ specHashToRange [97, 97] 0 := by decide

/-- C2 (amended): with the per-unit update corrected to
`accumulator * 32 - accumulator + c + key` (the spec wrote `* 31` where
the code's `(hash << 5) - hash` is `* 32 - 1·`), `hashScore` equals the
reference hash-to-range function for every code-unit list and every
integer key; moreover `Math.abs(hash % 101)` agrees with the spec's
`abs(accumulator) % 101` at every integer accumulator value, the minimum
32-bit signed integer included. -/
theorem c2_amended_hash_matches_fixed_reference :
    (∀ (text : List ℕ) (key : ℤ), hashScore text key = specHashToRangeFixed text key) ∧
    ∀ h : ℤ, (Int.tmod h 101).natAbs = h.natAbs % 101 := by
  constructor
  · intro text key
    unfold hashScore specHashToRangeFixed
    rw [show hashStep key = (fun (acc : ℤ) (c : ℕ) => toInt32 (acc * 32 - acc + c + key)) from
      funext fun acc => funext fun c => hashStep_eq key acc c]
    exact natAbs_tmod_eq _ 101
  · intro h
    exact natAbs_tmod_eq h 101

/-! ## Binary64 model: rounding correctness bounds -/

theorem log2fuel_spec : ∀ (fuel n : ℕ), n ≤ fuel → 1 ≤ n →
    2 ^ log2fuel fuel n ≤ n ∧ n < 2 ^ (log2fuel fuel n + 1) := by
  intro fuel
  induction fuel with
  | zero => intro n h1 h2; omega
  | succ f ih =>
    intro n hn h1
    by_cases hsmall : n ≤ 1
    · have hx : log2fuel (f + 1) n = 0 := by simp [log2fuel, hsmall]
      rw [hx]
      omega
    · have hx : log2fuel (f + 1) n = log2fuel f (n / 2) + 1 := by
        simp [log2fuel, hsmall]
      rw [hx]
      have h2 : n / 2 ≤ f := by omega
      have h3 : 1 ≤ n / 2 := by omega
      obtain ⟨ha, hb⟩ := ih (n / 2) h2 h3
      constructor
      · have e : 2 ^ (log2fuel f (n / 2) + 1) = 2 * 2 ^ log2fuel f (n / 2) := by ring
        rw [e]
        omega
      · have e : 2 ^ (log2fuel f (n / 2) + 1 + 1) = 2 * 2 ^ (log2fuel f (n / 2) + 1) := by ring
        rw [e]
        omega

theorem log2floor_spec (n : ℕ) (h : 1 ≤ n) :
    2 ^ log2floor n ≤ n ∧ n < 2 ^ (log2floor n + 1) :=
  log2fuel_spec n n le_rfl h

theorem roundEvenDiv_bound (n s : ℕ) :
    roundEvenDiv n s * 2 ^ s ≤ n + 2 ^ (s - 1) ∧
    n ≤ roundEvenDiv n s * 2 ^ s + 2 ^ (s - 1) := by
  rcases Nat.eq_zero_or_pos s with rfl | hs
  · have h0 : roundEvenDiv n 0 = n := by norm_num [roundEvenDiv, Nat.mod_one]
    rw [h0]
    norm_num
  · obtain ⟨t, rfl⟩ : ∃ t, s = t + 1 := ⟨s - 1, by omega⟩
    have hd := Nat.div_add_mod n (2 ^ (t + 1))
    have hp : 0 < 2 ^ (t + 1) := Nat.two_pow_pos _
    have hr : n % 2 ^ (t + 1) < 2 ^ (t + 1) := Nat.mod_lt _ hp
    have hh : 2 ^ (t + 1) = 2 * 2 ^ t := by ring
    have hs1 : (t + 1) - 1 = t := rfl
    have e1 : (n / 2 ^ (t + 1) + 1) * 2 ^ (t + 1) =
        2 ^ (t + 1) * (n / 2 ^ (t + 1)) + 2 ^ (t + 1) := by ring
    have e2 : n / 2 ^ (t + 1) * 2 ^ (t + 1) = 2 ^ (t + 1) * (n / 2 ^ (t + 1)) := by ring
    unfold roundEvenDiv
    rw [hs1]
    split
    · rw [e1]
      generalize 2 ^ (t + 1) * (n / 2 ^ (t + 1)) = A at hd ⊢
      omega
    · split
      · rw [e2]
        generalize 2 ^ (t + 1) * (n / 2 ^ (t + 1)) = A at hd ⊢
        omega
      · split
        · rw [e2]
          generalize 2 ^ (t + 1) * (n / 2 ^ (t + 1)) = A at hd ⊢
          omega
        · rw [e1]
          generalize 2 ^ (t + 1) * (n / 2 ^ (t + 1)) = A at hd ⊢
          omega

theorem Dy.val_nonneg (d : Dy) : 0 ≤ d.val := by
  unfold Dy.val
  positivity

theorem dy_cast_div_le (x : ℕ) (k m : ℕ) (hk : k ≤ m) :
    ((x : ℚ) * 2 ^ (m - k)) / 2 ^ m = (x : ℚ) / 2 ^ k := by
  have h2 : (2 : ℚ) ^ m = 2 ^ (m - k) * 2 ^ k := by
    rw [← pow_add]
    congr 1
    omega
  rw [h2, mul_comm ((x : ℚ)) _, mul_div_mul_left _ _ (by positivity)]

theorem Dy.addExact_val (a b : Dy) : (a.addExact b).val = a.val + b.val := by
  unfold Dy.addExact Dy.val
  dsimp only
  push_cast
  rw [add_div, dy_cast_div_le a.num a.exp _ (le_max_left _ _),
    dy_cast_div_le b.num b.exp _ (le_max_right _ _)]

theorem Dy.rnd_of_lt (d : Dy) (h : d.num < 9007199254740992) : d.rnd = d := by
  simp [Dy.rnd, h]

theorem Dy.rnd_err (d : Dy) (hv : d.val ≤ 128) : |d.rnd.val - d.val| ≤ 1 / 2 ^ 46 := by
  unfold Dy.rnd
  split
  · simp
  · rename_i hbig
    push_neg at hbig
    dsimp only
    have hnum1 : 1 ≤ d.num := by omega
    obtain ⟨hlow, hhigh⟩ := log2floor_spec d.num hnum1
    have hL53 : 53 ≤ log2floor d.num := by
      by_contra hc
      push_neg at hc
      have hmono : 2 ^ (log2floor d.num + 1) ≤ 2 ^ 53 :=
        Nat.pow_le_pow_right (by omega) (by omega)
      have h53 : (2:ℕ) ^ 53 = 9007199254740992 := by norm_num
      omega
    have hnum_le : d.num ≤ 128 * 2 ^ d.exp := by
      have hpq : (0 : ℚ) < 2 ^ d.exp := by positivity
      rw [Dy.val, div_le_iff hpq] at hv
      have hc : (d.num : ℚ) ≤ ((128 * 2 ^ d.exp : ℕ) : ℚ) := by
        push_cast
        linarith
      exact_mod_cast hc
    have hLexp : log2floor d.num ≤ 7 + d.exp := by
      by_contra hc
      push_neg at hc
      have hmono : 2 ^ (8 + d.exp) ≤ 2 ^ log2floor d.num :=
        Nat.pow_le_pow_right (by omega) (by omega)
      have h256 : (2:ℕ) ^ (8 + d.exp) = 256 * 2 ^ d.exp := by
        rw [pow_add]
        norm_num
      omega
    set s := log2floor d.num + 1 - 53 with hsdef
    obtain ⟨hb1, hb2⟩ := roundEvenDiv_bound d.num s
    have hexp46 : s - 1 + 46 ≤ d.exp := by omega
    have hfin : ((2 : ℚ) ^ (s - 1)) / 2 ^ d.exp ≤ 1 / 2 ^ 46 := by
      rw [div_le_div_iff (by positivity) (by positivity)]
      have hnat : 2 ^ (s - 1) * 2 ^ 46 ≤ 2 ^ d.exp := by
        calc 2 ^ (s - 1) * 2 ^ 46 = 2 ^ (s - 1 + 46) := by rw [pow_add]
        _ ≤ 2 ^ d.exp := Nat.pow_le_pow_right (by omega) hexp46
      have hc : ((2 ^ (s - 1) * 2 ^ 46 : ℕ) : ℚ) ≤ ((2 ^ d.exp : ℕ) : ℚ) :=
        Nat.cast_le.mpr hnat
      push_cast at hc
      linarith
    have hc1 : ((roundEvenDiv d.num s * 2 ^ s : ℕ) : ℚ) ≤ (d.num : ℚ) + 2 ^ (s - 1) := by
      have hc := Nat.cast_le (α := ℚ).mpr hb1
      push_cast at hc
      push_cast
      linarith
    have hc2 : (d.num : ℚ) ≤ ((roundEvenDiv d.num s * 2 ^ s : ℕ) : ℚ) + 2 ^ (s - 1) := by
      have hc := Nat.cast_le (α := ℚ).mpr hb2
      push_cast at hc
      push_cast
      linarith
    unfold Dy.val
    dsimp only
    rw [abs_sub_le_iff]
    have hpq : (0 : ℚ) < 2 ^ d.exp := by positivity
    constructor
    · rw [div_sub_div_same, div_le_div_iff hpq (by positivity : (0:ℚ) < 2 ^ 46)]
      have := hfin
      rw [div_le_div_iff hpq (by positivity : (0:ℚ) < 2 ^ 46)] at this
      push_cast at hc1 ⊢
      linarith
    · rw [div_sub_div_same, div_le_div_iff hpq (by positivity : (0:ℚ) < 2 ^ 46)]
      have := hfin
      rw [div_le_div_iff hpq (by positivity : (0:ℚ) < 2 ^ 46)] at this
      push_cast at hc2 ⊢
      linarith

/-! ## Error bound for the weighted-score pipeline -/

theorem lit0p5_mul_val (s : ℕ) (hs : s ≤ 100) : (lit0p5.fmulNat s).val = (s : ℚ) / 2 := by
  have h1 : lit0p5.fmulNat s = Dy.rnd (Dy.mk (1 * s) 1) := rfl
  rw [h1, Dy.rnd_of_lt _ (by simp; omega)]
  unfold Dy.val
  push_cast
  ring

theorem lit0p3_mul_err (b : ℕ) (hb : b ≤ 100) :
    |(lit0p3.fmulNat b).val - 3 / 10 * b| ≤ 1 / 2 ^ 45 := by
  have h1 : lit0p3.fmulNat b = Dy.rnd (Dy.mk (5404319552844595 * b) 54) := rfl
  have hbq : (b : ℚ) ≤ 100 := by exact_mod_cast hb
  have hbq0 : (0 : ℚ) ≤ b := by positivity
  have hpre : (Dy.mk (5404319552844595 * b) 54).val = (5404319552844595 * b : ℚ) / 2 ^ 54 := by
    unfold Dy.val
    push_cast
    ring
  have hb128 : (Dy.mk (5404319552844595 * b) 54).val ≤ 128 := by
    rw [hpre, div_le_iff (by positivity)]
    nlinarith
  have herr := Dy.rnd_err _ hb128
  have hdiff : |(Dy.mk (5404319552844595 * b) 54).val - 3 / 10 * b| ≤ 1 / 2 ^ 49 := by
    rw [hpre]
    have hident : (5404319552844595 * b : ℚ) / 2 ^ 54 - 3 / 10 * b = -(b / (5 * 2 ^ 54)) := by
      field_simp
      ring
    rw [hident, abs_neg, abs_of_nonneg (by positivity)]
    rw [div_le_div_iff (by positivity) (by positivity)]
    nlinarith
  calc |(lit0p3.fmulNat b).val - 3 / 10 * b|
      ≤ |(lit0p3.fmulNat b).val - (Dy.mk (5404319552844595 * b) 54).val| +
        |(Dy.mk (5404319552844595 * b) 54).val - 3 / 10 * b| := abs_sub_le _ _ _
    _ ≤ 1 / 2 ^ 46 + 1 / 2 ^ 49 := by
        rw [h1]
        exact add_le_add herr hdiff
    _ ≤ 1 / 2 ^ 45 := by norm_num

theorem lit0p2_mul_err (r : ℕ) (hr : r ≤ 100) :
    |(lit0p2.fmulNat r).val - 1 / 5 * r| ≤ 1 / 2 ^ 45 := by
  have h1 : lit0p2.fmulNat r = Dy.rnd (Dy.mk (3602879701896397 * r) 54) := rfl
  have hrq : (r : ℚ) ≤ 100 := by exact_mod_cast hr
  have hrq0 : (0 : ℚ) ≤ r := by positivity
  have hpre : (Dy.mk (3602879701896397 * r) 54).val = (3602879701896397 * r : ℚ) / 2 ^ 54 := by
    unfold Dy.val
    push_cast
    ring
  have hb128 : (Dy.mk (3602879701896397 * r) 54).val ≤ 128 := by
    rw [hpre, div_le_iff (by positivity)]
    nlinarith
  have herr := Dy.rnd_err _ hb128
  have hdiff : |(Dy.mk (3602879701896397 * r) 54).val - 1 / 5 * r| ≤ 1 / 2 ^ 49 := by
    rw [hpre]
    have hident : (3602879701896397 * r : ℚ) / 2 ^ 54 - 1 / 5 * r = r / (5 * 2 ^ 54) := by
      field_simp
      ring
    rw [hident, abs_of_nonneg (by positivity)]
    rw [div_le_div_iff (by positivity) (by positivity)]
    nlinarith
  calc |(lit0p2.fmulNat r).val - 1 / 5 * r|
      ≤ |(lit0p2.fmulNat r).val - (Dy.mk (3602879701896397 * r) 54).val| +
        |(Dy.mk (3602879701896397 * r) 54).val - 1 / 5 * r| := abs_sub_le _ _ _
    _ ≤ 1 / 2 ^ 46 + 1 / 2 ^ 49 := by
        rw [h1]
        exact add_le_add herr hdiff
    _ ≤ 1 / 2 ^ 45 := by norm_num

theorem fadd_err (a b : Dy) (h : a.val + b.val ≤ 128) :
    |(a.fadd b).val - (a.val + b.val)| ≤ 1 / 2 ^ 46 := by
  unfold Dy.fadd
  have hsum := Dy.addExact_val a b
  have herr := Dy.rnd_err (a.addExact b) (by rw [hsum]; exact h)
  rw [hsum] at herr
  exact herr

theorem finalScoreRaw_err (s b r : ℕ) (hs : s ≤ 100) (hb : b ≤ 100) (hr : r ≤ 100) :
    |(finalScoreRaw s b r).val - (5 * s + 3 * b + 2 * r : ℚ) / 10| ≤ 1 / 2 ^ 43 := by
  have hsq : (s : ℚ) ≤ 100 := by exact_mod_cast hs
  have hbq : (b : ℚ) ≤ 100 := by exact_mod_cast hb
  have hrq : (r : ℚ) ≤ 100 := by exact_mod_cast hr
  have hsq0 : (0 : ℚ) ≤ s := by positivity
  have hbq0 : (0 : ℚ) ≤ b := by positivity
  have hrq0 : (0 : ℚ) ≤ r := by positivity
  have hA : (lit0p5.fmulNat s).val = (s : ℚ) / 2 := lit0p5_mul_val s hs
  have hB := abs_le.mp (lit0p3_mul_err b hb)
  have hC := abs_le.mp (lit0p2_mul_err r hr)
  have h1 : (lit0p5.fmulNat s).val + (lit0p3.fmulNat b).val ≤ 128 := by
    rw [hA]
    have := hB.2
    nlinarith
  have hS1 := abs_le.mp (fadd_err (lit0p5.fmulNat s) (lit0p3.fmulNat b) h1)
  have h2 : ((lit0p5.fmulNat s).fadd (lit0p3.fmulNat b)).val + (lit0p2.fmulNat r).val ≤ 128 := by
    have hx := hS1.2
    have hy := hC.2
    rw [hA] at hx
    nlinarith
  have hF := abs_le.mp (fadd_err _ _ h2)
  unfold finalScoreRaw
  rw [abs_le]
  constructor
  · have e : (5 * (s:ℚ) + 3 * b + 2 * r) / 10 = s / 2 + 3 / 10 * b + 1 / 5 * r := by ring
    rw [e]
    rw [hA] at hS1
    nlinarith [hF.1, hF.2, hS1.1, hS1.2, hB.1, hB.2, hC.1, hC.2]
  · have e : (5 * (s:ℚ) + 3 * b + 2 * r) / 10 = s / 2 + 3 / 10 * b + 1 / 5 * r := by ring
    rw [e]
    rw [hA] at hS1
    nlinarith [hF.1, hF.2, hS1.1, hS1.2, hB.1, hB.2, hC.1, hC.2]

/-! ## `Math.round` and threshold comparison bridges -/

theorem jsRound_le (d : Dy) (k : ℕ) (h : d.val < (k : ℚ) + 1 / 2) : jsRound d ≤ k := by
  unfold jsRound
  have hp : 0 < 2 ^ (d.exp + 1) := Nat.two_pow_pos _
  have hq : (d.num : ℚ) < ((k : ℚ) + 1 / 2) * 2 ^ d.exp := by
    rw [Dy.val, div_lt_iff (by positivity)] at h
    exact h
  have hnat : 2 * d.num < (2 * k + 1) * 2 ^ d.exp := by
    have hcast : ((2 * d.num : ℕ) : ℚ) < (((2 * k + 1) * 2 ^ d.exp : ℕ) : ℚ) := by
      push_cast
      nlinarith
    exact_mod_cast hcast
  rw [← Nat.lt_succ_iff, Nat.div_lt_iff_lt_mul hp]
  have e : (k + 1) * 2 ^ (d.exp + 1) = (2 * k + 1) * 2 ^ d.exp + 2 ^ d.exp := by ring
  rw [e]
  exact Nat.add_lt_add_right hnat _

theorem le_jsRound (d : Dy) (k : ℕ) (h : (k : ℚ) ≤ d.val + 1 / 2) : k ≤ jsRound d := by
  unfold jsRound
  rw [Nat.le_div_iff_mul_le (Nat.two_pow_pos _)]
  have hq : ((k : ℚ) - 1 / 2) * 2 ^ d.exp ≤ d.num := by
    rw [Dy.val] at h
    rw [← le_div_iff (by positivity : (0:ℚ) < 2 ^ d.exp)]
    linarith
  have hcast : ((k * 2 ^ (d.exp + 1) : ℕ) : ℚ) ≤ ((2 * d.num + 2 ^ d.exp : ℕ) : ℚ) := by
    push_cast [pow_succ]
    nlinarith
  exact_mod_cast hcast

theorem dyLtNat_iff (d : Dy) (k : ℕ) : dyLtNat d k = true ↔ d.val < k := by
  unfold dyLtNat
  rw [decide_eq_true_eq, Dy.val, div_lt_iff (by positivity : (0:ℚ) < 2 ^ d.exp)]
  constructor
  · intro hx
    exact_mod_cast Nat.cast_lt.mpr hx
  · intro hx
    exact_mod_cast hx

/-! ## Projections of `evaluateCompliance` -/

theorem evalC_wallet (w now : List ℕ) :
    (evaluateCompliance w now).wallet = jsTrim (jsToLower w) := rfl

theorem evalC_sanctions (w now : List ℕ) :
    (evaluateCompliance w now).sanctionsScore = hashScore (jsTrim (jsToLower w)) 11 := rfl

theorem evalC_behavioral (w now : List ℕ) :
    (evaluateCompliance w now).behavioralScore = hashScore (jsTrim (jsToLower w)) 29 := rfl

theorem evalC_reputation (w now : List ℕ) :
    (evaluateCompliance w now).reputationScore = hashScore (jsTrim (jsToLower w)) 53 := rfl

theorem evalC_finalScore (w now : List ℕ) :
    (evaluateCompliance w now).finalScore = jsRound (rawScoreOf w) := rfl

theorem evalC_status (w now : List ℕ) :
    (evaluateCompliance w now).status =
      (if dyLtNat (rawScoreOf w) 30 then Status.BLOCKED
       else if dyLtNat (rawScoreOf w) 70 then Status.WARNING
       else Status.APPROVED) := by
  simp only [evaluateCompliance, rawScoreOf]

theorem evalC_timestamp (w now : List ℕ) :
    (evaluateCompliance w now).timestamp = now := rfl

/-! ## Claim C5 -/

theorem hashScore_le_100 (text : List ℕ) (key : ℤ) : hashScore text key ≤ 100 := by
  unfold hashScore
  have h2 : ((text.foldl (hashStep key) 0).tmod 101).natAbs =
      (text.foldl (hashStep key) 0).natAbs % 101 := natAbs_tmod_eq _ 101
  rw [h2]
  have h := Nat.mod_lt (text.foldl (hashStep key) 0).natAbs (show 0 < 101 by norm_num)
  omega

/-- C5: every sub-score returned by `evaluateCompliance` (equivalently,
`hashScore` at any input and key) is a natural number at most 100, and
the returned `finalScore` is a natural number at most 100. -/
theorem c5_score_range_invariant :
    (∀ (text : List ℕ) (key : ℤ), hashScore text key ≤ 100) ∧
    ∀ (w now : List ℕ),
      (evaluateCompliance w now).sanctionsScore ≤ 100 ∧
      (evaluateCompliance w now).behavioralScore ≤ 100 ∧
      (evaluateCompliance w now).reputationScore ≤ 100 ∧
      (evaluateCompliance w now).finalScore ≤ 100 := by
  refine ⟨hashScore_le_100, fun w now => ?_⟩
  rw [evalC_sanctions, evalC_behavioral, evalC_reputation, evalC_finalScore]
  refine ⟨hashScore_le_100 _ _, hashScore_le_100 _ _, hashScore_le_100 _ _, ?_⟩
  apply jsRound_le
  have h11 := hashScore_le_100 (jsTrim (jsToLower w)) 11
  have h29 := hashScore_le_100 (jsTrim (jsToLower w)) 29
  have h53 := hashScore_le_100 (jsTrim (jsToLower w)) 53
  have herr := (abs_le.mp (finalScoreRaw_err _ _ _ h11 h29 h53)).2
  unfold rawScoreOf
  have hq11 : ((hashScore (jsTrim (jsToLower w)) 11 : ℕ) : ℚ) ≤ 100 := by exact_mod_cast h11
  have hq29 : ((hashScore (jsTrim (jsToLower w)) 29 : ℕ) : ℚ) ≤ 100 := by exact_mod_cast h29
  have hq53 : ((hashScore (jsTrim (jsToLower w)) 53 : ℕ) : ℚ) ≤ 100 := by exact_mod_cast h53
  push_cast
  nlinarith [herr]

/-! ## Claim C7 -/

/-- C7 (counterexample): at the sub-score triple `(0, 31, 1)` the
binary64 evaluation of `0.5*0 + 0.3*31 + 0.2*1` is
`9.499999999999998…`, strictly below the exact value `9.5`, so
`Math.round` gives 9 while the exact rational computation rounds half
away from zero to 10. -/
theorem c7_counterexample_halfway_triple :
    jsRound (finalScoreRaw 0 31 1) = 9 ∧ specFinalScore 0 31 1 = 10 ∧
    jsRound (finalScoreRaw 0 31 1) ≠ specFinalScore 0 31 1 := by decide

/-- C7 (amended): whenever the exact weighted sum `(5s + 3b + 2r) / 10`
is not a half-integer (`5s + 3b + 2r` is not 5 mod 10), the binary64
evaluation followed by `Math.round` agrees with rounding the exact
rational value half away from zero; at half-integers the float
evaluation may fall below the tie and round down (see the
counterexample). -/
theorem c7_amended_rounding_agreement_off_halfway (s b r : ℕ)
    (hs : s ≤ 100) (hb : b ≤ 100) (hr : r ≤ 100)
    (hmod : (5 * s + 3 * b + 2 * r) % 10 ≠ 5) :
    jsRound (finalScoreRaw s b r) = specFinalScore s b r := by
  have herr := abs_le.mp (finalScoreRaw_err s b r hs hb hr)
  have hdm := Nat.div_add_mod (5 * s + 3 * b + 2 * r) 10
  have hdlt : (5 * s + 3 * b + 2 * r) % 10 < 10 := Nat.mod_lt _ (by norm_num)
  have hVq : (5 * (s:ℚ) + 3 * b + 2 * r) / 10 =
      ((5 * s + 3 * b + 2 * r) / 10 : ℕ) + ((5 * s + 3 * b + 2 * r) % 10 : ℕ) / 10 := by
    have hc : ((5 * s + 3 * b + 2 * r : ℕ) : ℚ) =
        ((10 * ((5 * s + 3 * b + 2 * r) / 10) + (5 * s + 3 * b + 2 * r) % 10 : ℕ) : ℚ) := by
      exact_mod_cast hdm.symm
    push_cast at hc
    field_simp
    linarith
  by_cases hd4 : (5 * s + 3 * b + 2 * r) % 10 ≤ 4
  · have hspec : specFinalScore s b r = (5 * s + 3 * b + 2 * r) / 10 := by
      unfold specFinalScore
      omega
    rw [hspec]
    have hdq : (((5 * s + 3 * b + 2 * r) % 10 : ℕ) : ℚ) ≤ 4 := by exact_mod_cast hd4
    have hdq0 : (0:ℚ) ≤ (((5 * s + 3 * b + 2 * r) % 10 : ℕ) : ℚ) := by positivity
    apply le_antisymm
    · apply jsRound_le
      rw [hVq] at herr
      nlinarith [herr.2]
    · apply le_jsRound
      rw [hVq] at herr
      nlinarith [herr.1]
  · have hd6 : 6 ≤ (5 * s + 3 * b + 2 * r) % 10 := by omega
    have hspec : specFinalScore s b r = (5 * s + 3 * b + 2 * r) / 10 + 1 := by
      unfold specFinalScore
      omega
    rw [hspec]
    have hdq : (6:ℚ) ≤ (((5 * s + 3 * b + 2 * r) % 10 : ℕ) : ℚ) := by exact_mod_cast hd6
    have hdq9 : (((5 * s + 3 * b + 2 * r) % 10 : ℕ) : ℚ) ≤ 9 := by
      have : (5 * s + 3 * b + 2 * r) % 10 ≤ 9 := by omega
      exact_mod_cast this
    apply le_antisymm
    · apply jsRound_le
      rw [hVq] at herr
      push_cast
      nlinarith [herr.2]
    · apply le_jsRound
      rw [hVq] at herr
      push_cast
      nlinarith [herr.1]

theorem c7_amended_rounding_agreement_off_halfway_witness :
    (5 * 100 + 3 * 100 + 2 * 100) % 10 ≠ 5 ∧
    jsRound (finalScoreRaw 100 100 100) = specFinalScore 100 100 100 :=
  ⟨by decide, c7_amended_rounding_agreement_off_halfway 100 100 100 (by decide) (by decide)
    (by decide) (by decide)⟩

/-! ## Claim C1 -/

/-- C1 (counterexample): for the input `"j"` (code unit 106) the
sub-scores are (16, 34, 58), the raw weighted sum is the double
`29.8` which is below 30, so the status is BLOCKED, while the returned
rounded `finalScore` is 30 — under the claim's thresholds a
`finalScore` of 30 would have to be WARNING. -/
theorem c1_counterexample_boundary :
    (evaluateCompliance [106] []).finalScore = 30 ∧
    (evaluateCompliance [106] []).status = Status.BLOCKED := by decide

/-- C1 (amended): the status is derived from the raw (pre-rounding)
weighted score under the closed thresholds `< 30`, `< 70`; the returned
`finalScore` is the rounding of that raw score.  Consequently
`finalScore = 29` forces BLOCKED and `finalScore = 69` forces WARNING,
while `finalScore = 30` can be BLOCKED or WARNING (never APPROVED) and
`finalScore = 70` can be WARNING or APPROVED (never BLOCKED). -/
theorem c1_amended_status_thresholds (w now : List ℕ) :
    ((evaluateCompliance w now).status = Status.BLOCKED ↔ (rawScoreOf w).val < 30) ∧
    ((evaluateCompliance w now).status = Status.WARNING ↔
      30 ≤ (rawScoreOf w).val ∧ (rawScoreOf w).val < 70) ∧
    ((evaluateCompliance w now).status = Status.APPROVED ↔ 70 ≤ (rawScoreOf w).val) ∧
    (evaluateCompliance w now).finalScore = jsRound (rawScoreOf w) ∧
    ((evaluateCompliance w now).finalScore = 29 →
      (evaluateCompliance w now).status = Status.BLOCKED) ∧
    ((evaluateCompliance w now).finalScore = 69 →
      (evaluateCompliance w now).status = Status.WARNING) ∧
    ((evaluateCompliance w now).finalScore = 30 →
      (evaluateCompliance w now).status ≠ Status.APPROVED) ∧
    ((evaluateCompliance w now).finalScore = 70 →
      (evaluateCompliance w now).status ≠ Status.BLOCKED) := by
  have h30 := dyLtNat_iff (rawScoreOf w) 30
  have h70 := dyLtNat_iff (rawScoreOf w) 70
  rw [evalC_status, evalC_finalScore]
  by_cases b30 : dyLtNat (rawScoreOf w) 30 = true
  · have hv30 : (rawScoreOf w).val < 30 := h30.mp b30
    rw [if_pos b30]
    refine ⟨?_, ?_, ?_, rfl, ?_, ?_, ?_, ?_⟩
    · exact ⟨fun _ => hv30, fun _ => rfl⟩
    · constructor
      · intro h
        exact nomatch h
      · intro h
        linarith [h.1]
    · constructor
      · intro h
        exact nomatch h
      · intro h
        linarith
    · intro _
      rfl
    · intro h69
      exfalso
      have hle := jsRound_le (rawScoreOf w) 30 (by push_cast; linarith)
      omega
    · intro _ h
      exact nomatch h
    · intro h70'
      exfalso
      have hle := jsRound_le (rawScoreOf w) 30 (by push_cast; linarith)
      omega
  · have hv30 : ¬ (rawScoreOf w).val < 30 := fun hc => b30 (h30.mpr hc)
    by_cases b70 : dyLtNat (rawScoreOf w) 70 = true
    · have hv70 : (rawScoreOf w).val < 70 := h70.mp b70
      rw [if_neg b30, if_pos b70]
      refine ⟨?_, ?_, ?_, rfl, ?_, ?_, ?_, ?_⟩
      · constructor
        · intro h
          exact nomatch h
        · intro h
          exact absurd h hv30
      · exact ⟨fun _ => ⟨by linarith, hv70⟩, fun _ => rfl⟩
      · constructor
        · intro h
          exact nomatch h
        · intro h
          linarith
      · intro h29
        exfalso
        have hge := le_jsRound (rawScoreOf w) 30 (by push_cast; linarith)
        omega
      · intro _
        rfl
      · intro _ h
        exact nomatch h
      · intro _ h
        exact nomatch h
    · have hv70 : ¬ (rawScoreOf w).val < 70 := fun hc => b70 (h70.mpr hc)
      rw [if_neg b30, if_neg b70]
      refine ⟨?_, ?_, ?_, rfl, ?_, ?_, ?_, ?_⟩
      · constructor
        · intro h
          exact nomatch h
        · intro h
          linarith
      · constructor
        · intro h
          exact nomatch h
        · intro h
          linarith [h.2]
      · exact ⟨fun _ => by linarith, fun _ => rfl⟩
      · intro h29
        exfalso
        have hge := le_jsRound (rawScoreOf w) 70 (by push_cast; linarith)
        omega
      · intro h69
        exfalso
        have hge := le_jsRound (rawScoreOf w) 70 (by push_cast; linarith)
        omega
      · intro h30'
        exfalso
        have hge := le_jsRound (rawScoreOf w) 70 (by push_cast; linarith)
        omega
      · intro _ h
        exact nomatch h

theorem c1_amended_status_thresholds_witness :
    (evaluateCompliance [106] []).status ≠ Status.APPROVED :=
  (c1_amended_status_thresholds [106] []).2.2.2.2.2.2.1 (by decide)

/-! ## Normalization lemmas -/

theorem wsLowerFix (c : ℕ) (h : isJsWs c = true) : jsLowerUnit c = c := by
  simp [isJsWs, wsChars] at h
  unfold jsLowerUnit
  split
  · omega
  · rfl

theorem jsTrim_eq_nil_iff (l : List ℕ) : jsTrim l = [] ↔ ∀ c ∈ l, isJsWs c = true := by
  unfold jsTrim
  constructor
  · intro h c hc
    rw [List.reverse_eq_nil_iff, List.dropWhile_eq_nil_iff] at h
    have hdw : ∀ x ∈ l.dropWhile isJsWs, isJsWs x = true := by
      intro x hx
      exact h x (by simpa using hx)
    have hsplit := List.takeWhile_append_dropWhile (p := isJsWs) (l := l)
    rw [← hsplit] at hc
    rcases List.mem_append.mp hc with hmem | hmem
    · exact List.mem_takeWhile_imp hmem
    · exact hdw c hmem
  · intro h
    have h1 : l.dropWhile isJsWs = [] := List.dropWhile_eq_nil_iff.mpr h
    rw [h1]
    rfl

/-! ## Claim C10 -/

/-- C10: any input whose trimmed form is empty (empty or
whitespace-only) yields zero sub-scores, `finalScore` 0, status BLOCKED,
empty normalized wallet, and no optional fields; the whole record is a
pure function of the input and the clock reading. -/
theorem c10_blank_input_blocked_zero (w now : List ℕ) (hw : jsTrim w = []) :
    evaluateCompliance w now =
      { wallet := [], sanctionsScore := 0, behavioralScore := 0, reputationScore := 0,
        finalScore := 0, status := Status.BLOCKED, arweaveTx := none, ledger := none,
        timestamp := now } := by
  have hall : ∀ c ∈ w, isJsWs c = true := (jsTrim_eq_nil_iff w).mp hw
  have hlower : jsToLower w = w := by
    unfold jsToLower
    rw [List.map_congr_left (fun c hc => wsLowerFix c (hall c hc))]
    exact List.map_id' w
  have hnorm : jsTrim (jsToLower w) = [] := by rw [hlower, hw]
  have hdef : evaluateCompliance w now =
      { wallet := jsTrim (jsToLower w)
        sanctionsScore := hashScore (jsTrim (jsToLower w)) 11
        behavioralScore := hashScore (jsTrim (jsToLower w)) 29
        reputationScore := hashScore (jsTrim (jsToLower w)) 53
        finalScore := jsRound (finalScoreRaw (hashScore (jsTrim (jsToLower w)) 11)
          (hashScore (jsTrim (jsToLower w)) 29) (hashScore (jsTrim (jsToLower w)) 53))
        status :=
          if dyLtNat (finalScoreRaw (hashScore (jsTrim (jsToLower w)) 11)
              (hashScore (jsTrim (jsToLower w)) 29) (hashScore (jsTrim (jsToLower w)) 53)) 30
          then Status.BLOCKED
          else if dyLtNat (finalScoreRaw (hashScore (jsTrim (jsToLower w)) 11)
              (hashScore (jsTrim (jsToLower w)) 29) (hashScore (jsTrim (jsToLower w)) 53)) 70
          then Status.WARNING
          else Status.APPROVED
        arweaveTx := none
        ledger := none
        timestamp := now } := rfl
  rw [hdef, hnorm]
  rfl

theorem c10_blank_input_blocked_zero_witness :
    evaluateCompliance [32, 9] [] =
      { wallet := [], sanctionsScore := 0, behavioralScore := 0, reputationScore := 0,
        finalScore := 0, status := Status.BLOCKED, arweaveTx := none, ledger := none,
        timestamp := [] } :=
  c10_blank_input_blocked_zero [32, 9] [] (by decide)

theorem mem_of_dropWhile {α : Type} {p : α → Bool} {l : List α} {x : α}
    (h : x ∈ l.dropWhile p) : x ∈ l := by
  have hsplit := List.takeWhile_append_dropWhile (p := p) (l := l)
  rw [← hsplit]
  exact List.mem_append_right _ h

theorem dropWhileCongr {α : Type} {p q : α → Bool} {l : List α}
    (h : ∀ x ∈ l, p x = q x) : l.dropWhile p = l.dropWhile q := by
  induction l with
  | nil => rfl
  | cons c t ih =>
    rw [List.dropWhile_cons, List.dropWhile_cons, h c (by simp)]
    split
    · exact ih fun x hx => h x (by simp [hx])
    · rfl

theorem dropWhile_head_false {α : Type} {p : α → Bool} {c : α} {t : List α}
    (h : (c :: t).dropWhile p = c :: t) : p c = false := by
  by_contra hpc
  have hp : p c = true := by
    cases hx : p c
    · exact absurd hx hpc
    · rfl
  rw [List.dropWhile_cons, if_pos hp] at h
  have hlen := congrArg List.length h
  have hsplit := List.takeWhile_append_dropWhile (p := p) (l := t)
  have hle : (t.dropWhile p).length ≤ t.length := by
    conv_rhs => rw [← hsplit]
    rw [List.length_append]
    omega
  simp at hlen
  omega

theorem jsTrim_mem {l : List ℕ} {x : ℕ} (h : x ∈ jsTrim l) : x ∈ l := by
  unfold jsTrim at h
  rw [List.mem_reverse] at h
  have h2 := mem_of_dropWhile h
  rw [List.mem_reverse] at h2
  exact mem_of_dropWhile h2

theorem jsTrim_dropWhile_self (l : List ℕ) : (jsTrim l).dropWhile isJsWs = jsTrim l := by
  have hAfix : (l.dropWhile isJsWs).dropWhile isJsWs = l.dropWhile isJsWs :=
    List.dropWhile_idempotent _ _
  have hdecomp : l.dropWhile isJsWs =
      jsTrim l ++ ((l.dropWhile isJsWs).reverse.takeWhile isJsWs).reverse := by
    conv_lhs => rw [← List.reverse_reverse (l.dropWhile isJsWs),
      ← List.takeWhile_append_dropWhile (p := isJsWs) (l := (l.dropWhile isJsWs).reverse),
      List.reverse_append]
    rfl
  obtain ⟨u, hu⟩ : ∃ u, l.dropWhile isJsWs = jsTrim l ++ u := ⟨_, hdecomp⟩
  cases htr : jsTrim l with
  | nil => rfl
  | cons c t =>
    rw [htr] at hu
    have hAc : l.dropWhile isJsWs = c :: (t ++ u) := by
      rw [hu]
      rfl
    rw [hAc] at hAfix
    have hpc : isJsWs c = false := dropWhile_head_false hAfix
    rw [List.dropWhile_cons, hpc]
    simp

theorem jsTrim_idem (l : List ℕ) : jsTrim (jsTrim l) = jsTrim l := by
  have h1 := jsTrim_dropWhile_self l
  show (((jsTrim l).dropWhile isJsWs).reverse.dropWhile isJsWs).reverse = jsTrim l
  rw [h1]
  unfold jsTrim
  rw [List.reverse_reverse, List.dropWhile_idempotent]

theorem jsTrim_map (f : ℕ → ℕ) (w : List ℕ)
    (hf : ∀ c ∈ w, isJsWs (f c) = isJsWs c) :
    jsTrim (w.map f) = (jsTrim w).map f := by
  unfold jsTrim
  rw [List.dropWhile_map]
  have h1 : w.dropWhile (isJsWs ∘ f) = w.dropWhile isJsWs :=
    dropWhileCongr fun x hx => hf x hx
  rw [h1, ← List.map_reverse, List.dropWhile_map]
  have h2 : (w.dropWhile isJsWs).reverse.dropWhile (isJsWs ∘ f) =
      (w.dropWhile isJsWs).reverse.dropWhile isJsWs :=
    dropWhileCongr fun x hx =>
      hf x (mem_of_dropWhile (p := isJsWs) (List.mem_reverse.mp hx))
  rw [h2, ← List.map_reverse]

theorem asciiUpperLower : ∀ c, c < 128 → jsLowerUnit (jsUpperUnit c) = jsLowerUnit c := by
  decide

theorem asciiWsLower : ∀ c, c < 128 → isJsWs (jsLowerUnit c) = isJsWs c := by decide

theorem asciiUpperSingleton (c : ℕ) (h : c < 128) : jsUpperUnits c = [jsUpperUnit c] := by
  unfold jsUpperUnits
  rw [if_neg (by omega)]

theorem jsToUpper_ascii (w : List ℕ) (hw : ∀ c ∈ w, c < 128) :
    jsToUpper w = w.map jsUpperUnit := by
  unfold jsToUpper
  induction w with
  | nil => rfl
  | cons c t ih =>
    rw [List.flatMap_cons, asciiUpperSingleton c (hw c (by simp)),
      ih fun x hx => hw x (by simp [hx])]
    rfl

theorem c3_norm_eq (w : List ℕ) (hw : ∀ c ∈ w, c < 128) :
    jsTrim (jsToLower (jsToUpper (jsTrim w))) = jsTrim (jsToLower w) := by
  have htw : ∀ c ∈ jsTrim w, c < 128 := fun c hc => hw c (jsTrim_mem hc)
  rw [jsToUpper_ascii _ htw]
  unfold jsToLower
  rw [List.map_map]
  have hcomp : List.map (jsLowerUnit ∘ jsUpperUnit) (jsTrim w) =
      List.map jsLowerUnit (jsTrim w) :=
    List.map_congr_left fun c hc => asciiUpperLower c (htw c hc)
  rw [hcomp,
    jsTrim_map jsLowerUnit (jsTrim w) (fun c hc => asciiWsLower c (htw c hc)),
    jsTrim_map jsLowerUnit w (fun c hc => asciiWsLower c (hw c hc)), jsTrim_idem]

/-! ## Claim C3 -/

/-- C3 (counterexample): for the input `"ß"` (code unit 223, a fixed
point of `toLowerCase` whose `toUpperCase` image is `"SS"`),
`evaluateCompliance("ß")` and `evaluateCompliance("ß".trim().toUpperCase())`
disagree: the normalized wallets are `"ß"` and `"ss"` and the sanctions
scores are 32 and 93. -/
theorem c3_counterexample_sharp_s :
    (evaluateCompliance [223] []).sanctionsScore = 32 ∧
    (evaluateCompliance (jsToUpper (jsTrim [223])) []).sanctionsScore = 93 ∧
    (evaluateCompliance [223] []).wallet ≠
      (evaluateCompliance (jsToUpper (jsTrim [223])) []).wallet := by decide

/-- C3 (amended): for inputs consisting of ASCII code units (where
uppercase-then-lowercase is the identity on the lowercased string),
`evaluateCompliance(s)` and `evaluateCompliance(s.trim().toUpperCase())`
agree on every field except the timestamp; in particular
lowercase-then-trim and trim-then-lowercase normalization coincide
there. -/
theorem c3_amended_ascii_normalization_invariance (w t1 t2 : List ℕ)
    (hw : ∀ c ∈ w, c < 128) :
    (evaluateCompliance w t1).wallet =
      (evaluateCompliance (jsToUpper (jsTrim w)) t2).wallet ∧
    (evaluateCompliance w t1).sanctionsScore =
      (evaluateCompliance (jsToUpper (jsTrim w)) t2).sanctionsScore ∧
    (evaluateCompliance w t1).behavioralScore =
      (evaluateCompliance (jsToUpper (jsTrim w)) t2).behavioralScore ∧
    (evaluateCompliance w t1).reputationScore =
      (evaluateCompliance (jsToUpper (jsTrim w)) t2).reputationScore ∧
    (evaluateCompliance w t1).finalScore =
      (evaluateCompliance (jsToUpper (jsTrim w)) t2).finalScore ∧
    (evaluateCompliance w t1).status =
      (evaluateCompliance (jsToUpper (jsTrim w)) t2).status ∧
    (evaluateCompliance w t1).arweaveTx =
      (evaluateCompliance (jsToUpper (jsTrim w)) t2).arweaveTx ∧
    (evaluateCompliance w t1).ledger =
      (evaluateCompliance (jsToUpper (jsTrim w)) t2).ledger := by
  have hnorm := c3_norm_eq w hw
  have hraw : rawScoreOf (jsToUpper (jsTrim w)) = rawScoreOf w := by
    unfold rawScoreOf
    rw [hnorm]
  refine ⟨?_, ?_, ?_, ?_, ?_, ?_, rfl, rfl⟩
  · rw [evalC_wallet, evalC_wallet, hnorm]
  · rw [evalC_sanctions, evalC_sanctions, hnorm]
  · rw [evalC_behavioral, evalC_behavioral, hnorm]
  · rw [evalC_reputation, evalC_reputation, hnorm]
  · rw [evalC_finalScore, evalC_finalScore, hraw]
  · rw [evalC_status, evalC_status, hraw]

theorem c3_amended_ascii_normalization_invariance_witness :
    (evaluateCompliance [74] []).sanctionsScore =
      (evaluateCompliance (jsToUpper (jsTrim [74])) [48]).sanctionsScore :=
  (c3_amended_ascii_normalization_invariance [74] [] [48] (by decide)).2.1

/-! ## Claim C6 -/

/-- C6: the SHA-256 input of `createProvenancePayload` is exactly the
canonical key-sorted serialization of the fixed field set — the constant
protocol tag plus the six fields extracted from the result (wallet, the
three sub-scores, finalScore, status); the timestamp and the optional
metadata fields are excluded, and the attached `deterministicHash` is
the digest of that serialization, which does not contain the hash
itself. -/
theorem c6_hash_input_is_sorted_six_field_serialization :
    ∀ result : ComplianceResult,
      payloadJson result = specCanonicalJson result ∧
      (createProvenancePayload result).deterministicHash =
        sha256hex (utf8Encode (payloadJson result)) ∧
      ∀ (t : List ℕ) (tx lg : Option (List ℕ)),
        payloadJson { result with timestamp := t, arweaveTx := tx, ledger := lg } =
          payloadJson result :=
  fun _ => ⟨rfl, rfl, fun _ _ _ => rfl⟩

/-! ## Claim C4 -/

/-- C4: two results agreeing on wallet, the three sub-scores, finalScore
and status (but possibly differing in timestamp, arweaveTx, ledger)
produce identical `deterministicHash` and identical provenance token. -/
theorem c4_provenance_hash_ignores_timestamp (r1 r2 : ComplianceResult)
    (hw : r1.wallet = r2.wallet) (hs : r1.sanctionsScore = r2.sanctionsScore)
    (hb : r1.behavioralScore = r2.behavioralScore)
    (hrp : r1.reputationScore = r2.reputationScore)
    (hf : r1.finalScore = r2.finalScore) (hst : r1.status = r2.status) :
    (createProvenanceRecord r1).payload.deterministicHash =
      (createProvenanceRecord r2).payload.deterministicHash ∧
    (createProvenanceRecord r1).arweaveTx = (createProvenanceRecord r2).arweaveTx := by
  have hjson : payloadJson r1 = payloadJson r2 := by
    unfold payloadJson payloadEntries
    rw [hw, hs, hb, hrp, hf, hst]
  have hhash : (createProvenancePayload r1).deterministicHash =
      (createProvenancePayload r2).deterministicHash := by
    show sha256hex (utf8Encode (payloadJson r1)) = sha256hex (utf8Encode (payloadJson r2))
    rw [hjson]
  constructor
  · exact hhash
  · show 65 :: 82 :: 95 :: (createProvenancePayload r1).deterministicHash.take 43 =
      65 :: 82 :: 95 :: (createProvenancePayload r2).deterministicHash.take 43
    rw [hhash]

theorem c4_provenance_hash_ignores_timestamp_witness :
    (createProvenanceRecord sampleResultA).payload.deterministicHash =
      (createProvenanceRecord sampleResultB).payload.deterministicHash ∧
    (createProvenanceRecord sampleResultA).arweaveTx =
      (createProvenanceRecord sampleResultB).arweaveTx :=
  c4_provenance_hash_ignores_timestamp sampleResultA sampleResultB rfl rfl rfl rfl rfl rfl

/-! ## Claim C8 -/

theorem flatMap_byteHex_length (l : List ℕ) : (l.flatMap byteHex).length = 2 * l.length := by
  induction l with
  | nil => rfl
  | cons b t ih =>
    rw [List.flatMap_cons, List.length_append, ih]
    simp [byteHex]
    ring

theorem hash8Bytes_length (H : Hash8) : (hash8Bytes H).length = 32 := by
  simp [hash8Bytes, wordBytes]

theorem sha256hex_length (m : List ℕ) : (sha256hex m).length = 64 := by
  unfold sha256hex
  rw [flatMap_byteHex_length, hash8Bytes_length]

theorem hexDigitChar_isHex : ∀ n, n < 16 → isLowerHexDigit (hexDigitChar n) = true := by
  decide

theorem byteHex_isHex (b : ℕ) : ∀ c ∈ byteHex b, isLowerHexDigit c = true := by
  intro c hc
  unfold byteHex at hc
  simp at hc
  rcases hc with rfl | rfl
  · exact hexDigitChar_isHex _ (Nat.mod_lt _ (by norm_num))
  · exact hexDigitChar_isHex _ (Nat.mod_lt _ (by norm_num))

theorem sha256hex_isHex (m : List ℕ) : ∀ c ∈ sha256hex m, isLowerHexDigit c = true := by
  intro c hc
  unfold sha256hex at hc
  rw [List.mem_flatMap] at hc
  obtain ⟨b, _, hcb⟩ := hc
  exact byteHex_isHex b c hcb

/-- C8: for any payload whose `deterministicHash` is a 64-character
lowercase hex digest, `generateArweaveTxFromPayload` returns `AR_`
followed by exactly the first 43 hex characters of the digest; and every
token produced by `createProvenanceRecord` is `AR_` followed by exactly
43 lowercase hex characters. -/
theorem c8_token_format :
    (∀ p : ProvenancePayload, p.deterministicHash.length = 64 →
      (∀ c ∈ p.deterministicHash, isLowerHexDigit c = true) →
      generateArweaveTxFromPayload p = 65 :: 82 :: 95 :: p.deterministicHash.take 43 ∧
      (p.deterministicHash.take 43).length = 43 ∧
      ∀ c ∈ p.deterministicHash.take 43, isLowerHexDigit c = true) ∧
    ∀ result : ComplianceResult,
      ((createProvenanceRecord result).arweaveTx).length = 46 ∧
      ((createProvenanceRecord result).arweaveTx).take 3 = [65, 82, 95] ∧
      ∀ c ∈ ((createProvenanceRecord result).arweaveTx).drop 3, isLowerHexDigit c = true := by
  constructor
  · intro p hlen hhex
    refine ⟨rfl, ?_, ?_⟩
    · rw [List.length_take, hlen]
      norm_num
    · intro c hc
      exact hhex c (List.mem_of_mem_take hc)
  · intro result
    have hlen : (createProvenancePayload result).deterministicHash.length = 64 :=
      sha256hex_length _
    have hhex : ∀ c ∈ (createProvenancePayload result).deterministicHash,
        isLowerHexDigit c = true := sha256hex_isHex _
    refine ⟨?_, rfl, ?_⟩
    · show (65 :: 82 :: 95 ::
        (createProvenancePayload result).deterministicHash.take 43).length = 46
      rw [List.length_cons, List.length_cons, List.length_cons, List.length_take, hlen]
      norm_num
    · intro c hc
      have hc2 : c ∈ (createProvenancePayload result).deterministicHash.take 43 := hc
      exact hhex c (List.mem_of_mem_take hc2)

theorem c8_token_format_witness :
    generateArweaveTxFromPayload (createProvenancePayload sampleResultA) =
      65 :: 82 :: 95 ::
        (createProvenancePayload sampleResultA).deterministicHash.take 43 :=
  (c8_token_format.1 (createProvenancePayload sampleResultA)
    (sha256hex_length _) (sha256hex_isHex _)).1

/-! ## Claim C9 -/

theorem store_eq_replace (checks : List ComplianceResult) (result : ComplianceResult) :
    (match checks.findIdx? (fun c => c.wallet == result.wallet) with
      | some i => checks.set i result
      | none => checks ++ [result]) = replaceFirstByWallet result checks := by
  induction checks with
  | nil => rfl
  | cons c cs ih =>
    rw [List.findIdx?_cons]
    unfold replaceFirstByWallet
    by_cases hpc : (c.wallet == result.wallet) = true
    · rw [if_pos hpc, if_pos hpc]
      rfl
    · rw [if_neg hpc, if_neg hpc, List.findIdx?_succ]
      cases hcs : cs.findIdx? (fun c => c.wallet == result.wallet) with
      | none =>
        rw [hcs] at ih
        simp only [hcs, Option.map_none']
        rw [← ih]
        rfl
      | some j =>
        rw [hcs] at ih
        simp only [hcs, Option.map_some']
        rw [← ih]
        rfl

theorem mem_replaceFirst {r x : ComplianceResult} :
    ∀ {l : List ComplianceResult}, x ∈ replaceFirstByWallet r l → x ∈ l ∨ x = r := by
  intro l
  induction l with
  | nil =>
    intro h
    simp [replaceFirstByWallet] at h
    exact Or.inr h
  | cons c cs ih =>
    intro h
    unfold replaceFirstByWallet at h
    by_cases hpc : (c.wallet == r.wallet) = true
    · rw [if_pos hpc] at h
      rcases List.mem_cons.mp h with rfl | hmem
      · exact Or.inr rfl
      · exact Or.inl (List.mem_cons_of_mem _ hmem)
    · rw [if_neg hpc] at h
      rcases List.mem_cons.mp h with rfl | hmem
      · exact Or.inl (List.mem_cons_self x cs)
      · rcases ih hmem with hmem2 | rfl
        · exact Or.inl (List.mem_cons_of_mem _ hmem2)
        · exact Or.inr rfl

theorem replaceFirst_nodup (r : ComplianceResult) (l : List ComplianceResult)
    (h : WalletsNodup l) : WalletsNodup (replaceFirstByWallet r l) := by
  induction l with
  | nil =>
    unfold replaceFirstByWallet
    exact List.pairwise_singleton _ _
  | cons c cs ih =>
    obtain ⟨hc, hcs⟩ := List.pairwise_cons.mp h
    unfold replaceFirstByWallet
    by_cases hpc : (c.wallet == r.wallet) = true
    · rw [if_pos hpc]
      have hcw : c.wallet = r.wallet := eq_of_beq hpc
      exact List.Pairwise.cons (fun b hb => hcw ▸ hc b hb) hcs
    · rw [if_neg hpc]
      refine List.Pairwise.cons ?_ (ih hcs)
      intro b hb
      rcases mem_replaceFirst hb with hmem | rfl
      · exact hc b hmem
      · intro heq
        exact hpc (beq_iff_eq.mpr heq)

theorem replaceFirst_length_le (r : ComplianceResult) (l : List ComplianceResult) :
    (replaceFirstByWallet r l).length ≤ l.length + 1 := by
  induction l with
  | nil => simp [replaceFirstByWallet]
  | cons c cs ih =>
    unfold replaceFirstByWallet
    split
    · simp
    · simp only [List.length_cons]
      omega

theorem replaceFirst_length_match (r : ComplianceResult) (l : List ComplianceResult)
    (hm : ∃ c0 ∈ l, (c0.wallet == r.wallet) = true) :
    (replaceFirstByWallet r l).length = l.length := by
  induction l with
  | nil => simp at hm
  | cons c cs ih =>
    unfold replaceFirstByWallet
    by_cases hpc : (c.wallet == r.wallet) = true
    · rw [if_pos hpc]
      rfl
    · rw [if_neg hpc]
      obtain ⟨c0, hc0, hc0m⟩ := hm
      rcases List.mem_cons.mp hc0 with rfl | hc0cs
      · exact absurd hc0m hpc
      · simp only [List.length_cons]
        rw [ih ⟨c0, hc0cs, hc0m⟩]

theorem replaceFirst_no_match (r : ComplianceResult) (l : List ComplianceResult)
    (h : ∀ c ∈ l, (c.wallet == r.wallet) = false) :
    replaceFirstByWallet r l = l ++ [r] := by
  induction l with
  | nil => rfl
  | cons c cs ih =>
    unfold replaceFirstByWallet
    rw [if_neg (fun hp => by
      rw [h c (List.mem_cons_self c cs)] at hp
      exact Bool.noConfusion hp)]
    rw [ih fun x hx => h x (List.mem_cons_of_mem _ hx)]
    rfl

theorem filter_replaceFirst (r : ComplianceResult) (l : List ComplianceResult)
    (hnodup : WalletsNodup l) :
    (replaceFirstByWallet r l).filter (fun c => c.wallet == r.wallet) = [r] := by
  induction l with
  | nil =>
    unfold replaceFirstByWallet
    simp [List.filter]
  | cons c cs ih =>
    obtain ⟨hc, hcs⟩ := List.pairwise_cons.mp hnodup
    unfold replaceFirstByWallet
    by_cases hpc : (c.wallet == r.wallet) = true
    · rw [if_pos hpc]
      have hcw : c.wallet = r.wallet := eq_of_beq hpc
      have hrest : cs.filter (fun c => c.wallet == r.wallet) = [] := by
        rw [List.filter_eq_nil_iff]
        intro x hx hxx
        exact hc x hx (by rw [hcw]; exact (eq_of_beq hxx).symm)
      rw [List.filter_cons, if_pos (by simp), hrest]
    · rw [if_neg hpc]
      rw [List.filter_cons, if_neg (by simp [hpc])]
      exact ih hcs

theorem storeComplianceCheck_eq (l : List ComplianceResult) (r : ComplianceResult) :
    storeComplianceCheck l r =
      if 100 < (replaceFirstByWallet r l).length then (replaceFirstByWallet r l).drop 1
      else replaceFirstByWallet r l := by
  unfold storeComplianceCheck
  rw [store_eq_replace]

theorem store_invariant (l : List ComplianceResult) (hl : StoreReachable l) :
    WalletsNodup l ∧ l.length ≤ 100 := by
  induction hl with
  | nil => exact ⟨List.Pairwise.nil, by simp⟩
  | step l r _ ih =>
    rw [storeComplianceCheck_eq]
    have hrn : WalletsNodup (replaceFirstByWallet r l) := replaceFirst_nodup r l ih.1
    have hlen := replaceFirst_length_le r l
    constructor
    · split
      · exact List.Pairwise.sublist (List.drop_sublist _ _) hrn
      · exact hrn
    · split
      · rename_i hgt
        rw [List.length_drop]
        omega
      · rename_i hle
        push_neg at hle
        exact hle

/-- C9: from any reachable state of the module-private store, after
`storeComplianceCheck(r)` the store contains exactly one entry whose
wallet equals `r.wallet`, and that entry is `r` — replacements happen in
place and never duplicate a wallet. -/
theorem c9_store_last_write_wins (l : List ComplianceResult) (hl : StoreReachable l)
    (r : ComplianceResult) :
    (storeComplianceCheck l r).filter (fun c => c.wallet == r.wallet) = [r] := by
  obtain ⟨hnodup, hlen100⟩ := store_invariant l hl
  rw [storeComplianceCheck_eq]
  have hfil := filter_replaceFirst r l hnodup
  split
  · rename_i hgt
    have hmatchfree : ∀ c ∈ l, (c.wallet == r.wallet) = false := by
      by_contra hcon
      push_neg at hcon
      obtain ⟨c0, hc0, hc0m⟩ := hcon
      have hc0m' : (c0.wallet == r.wallet) = true := by
        cases hx : c0.wallet == r.wallet
        · exact absurd hx hc0m
        · rfl
      have := replaceFirst_length_match r l ⟨c0, hc0, hc0m'⟩
      omega
    have hu : replaceFirstByWallet r l = l ++ [r] := replaceFirst_no_match r l hmatchfree
    rw [hu]
    cases l with
    | nil =>
      rw [hu] at hgt
      simp at hgt
    | cons c0 cs =>
      have hdrop : ((c0 :: cs) ++ [r]).drop 1 = cs ++ [r] := rfl
      rw [hdrop, List.filter_append]
      have hcs : cs.filter (fun c => c.wallet == r.wallet) = [] := by
        rw [List.filter_eq_nil_iff]
        intro x hx hxx
        rw [hmatchfree x (List.mem_cons_of_mem _ hx)] at hxx
        exact absurd hxx (by simp)
      rw [hcs]
      simp [List.filter]
  · exact hfil

theorem c9_store_last_write_wins_witness :
    (storeComplianceCheck [] sampleResultA).filter
      (fun c => c.wallet == sampleResultA.wallet) = [sampleResultA] :=
  c9_store_last_write_wins [] StoreReachable.nil sampleResultA

/-! ## SHA-256 conformance (FIPS 180-4 test vector) -/

/-- The embedded SHA-256 agrees with the FIPS 180-4 test vector for the
message `"abc"`. -/
theorem sha256_conformance_abc :
    sha256hex (strUnits ("abc")) =
      strUnits ("ba7816bf8f01cfea414140de5dae2223b00361a396177a9cb410ff61f20015ad") := by
  decide
